import Mathlib

/-!
Shallow embedding of the vocabulary-study page's core logic
(progress tracking, review scheduling, selection, quiz generation),
translated from the React/TypeScript source.

Conventions of the embedding:
* JavaScript timestamps (`Date.now()` values) are natural numbers of
  milliseconds.
* A JavaScript value that may be `null`/`undefined` is an `Option`.
* JavaScript truthiness is modelled explicitly where the source relies on
  it (`x || d` on numbers treats `0` as falsy, on strings treats `""` as
  falsy; `x ? a : b` on a nullable number treats both `null` and `0` as
  falsy).
* A three-way numeric comparator `(x, y) => kx - ky` is modelled by an
  `Ordering`-valued comparator with the same sign behaviour; per the
  ECMAScript specification a `NaN` comparator result (here: the
  `Infinity - Infinity` case) is treated as `+0`, i.e. `Ordering.eq`.
* `Array.prototype.sort` is required by ECMAScript to be stable; it is
  modelled by a structurally recursive stable insertion sort `sortCmp`.
* `Math.random`-driven choices are passed in as parameters: the random
  index as a `Nat`, the two shuffles as a permutation-producing function.
-/

namespace Vocab

/-- Per-word learning state, from the `ProgressData` interface. -/
structure ProgressData where
  known : Bool
  favorite : Bool
  seenCount : Nat
  correctCount : Nat
  streak : Nat
  lastReviewed : Option Nat
  nextDue : Option Nat
deriving Repr, DecidableEq

/-- The `defaultProgress` constant. -/
def defaultProgress : ProgressData :=
  { known := false, favorite := false, seenCount := 0, correctCount := 0,
    streak := 0, lastReviewed := none, nextDue := none }

/-- A raw imported word record, from the `WordItem` interface (fields not
used by the core logic are omitted). -/
structure WordItem where
  value : String
  translation : Option String := none
  tag : Option String := none
  collins : Option Int := none
  bnc : Option Int := none
  frq : Option Int := none
deriving Repr, DecidableEq

/-- A catalog entry: a word plus generated id and progress, from the
`WordWithProgress` interface. -/
structure WordWithProgress extends WordItem where
  id : String
  progress : ProgressData
deriving Repr, DecidableEq

/-- JavaScript `s || d` for a nullable string `s`: both `null` and `""`
are falsy. -/
def jsStrOr (s : Option String) (d : String) : String :=
  match s with
  | none => d
  | some v => if v = "" then d else v

/-- JavaScript `n || d` for a nullable number `n`: both `null` and `0`
are falsy. -/
def jsIntOr (n : Option Int) (d : Int) : Int :=
  match n with
  | none => d
  | some v => if v = 0 then d else v

/-- `normalizeDictionary`: each raw word becomes an entry with generated
id `` `${w.value}-${idx}` `` and a fresh copy of the default progress. -/
def normalizeDictionary (wordList : List WordItem) : List WordWithProgress :=
  wordList.mapIdx fun idx w =>
    { toWordItem := w, id := w.value ++ "-" ++ Nat.repr idx, progress := defaultProgress }

/-- `getProgressKey`: `` `word-progress-${dictName || "default"}` ``. -/
def getProgressKey (dictName : String) : String :=
  "word-progress-" ++ (if dictName = "" then "default" else dictName)

/-- The progress key used by the dict-change load effect and by
`updateProgress`: both compute `dict?.name || "Default"` before calling
`getProgressKey`; `dictName = none` models a missing dictionary/name. -/
def loadProgressKey (dictName : Option String) : String :=
  getProgressKey (jsStrOr dictName "Default")

/-- The progress key used by the import handler `onFileChange`:
`getProgressKey(json.name || "default")`. -/
def importProgressKey (jsonName : Option String) : String :=
  getProgressKey (jsStrOr jsonName "default")

/-- Flashcard grades, the keys of `INTERVALS`. -/
inductive Grade where
  | again
  | good
  | easy
deriving Repr, DecidableEq

/-- The `INTERVALS` constant (milliseconds). -/
def INTERVALS : Grade → Nat
  | .again => 10 * 1000
  | .good => 10 * 60 * 1000
  | .easy => 60 * 60 * 1000

/-- The progress updater applied by `gradeFlash` for a given grade, with
`nowTs` the current time. -/
def gradeFlashTransition (grade : Grade) (nowTs : Nat) (p : ProgressData) : ProgressData :=
  { p with
    seenCount := p.seenCount + 1
    correctCount := if grade = .again then p.correctCount else p.correctCount + 1
    streak := if grade = .again then 0 else p.streak + 1
    lastReviewed := some nowTs
    nextDue := some (nowTs + INTERVALS grade) }

/-- The progress updater applied by `onChoose`, keyed by whether the
chosen option was correct. -/
def quizTransition (isCorrect : Bool) (nowTs : Nat) (p : ProgressData) : ProgressData :=
  { p with
    seenCount := p.seenCount + 1
    correctCount := p.correctCount + (if isCorrect then 1 else 0)
    streak := if isCorrect then p.streak + 1 else 0
    lastReviewed := some nowTs
    nextDue := some (nowTs + (if isCorrect then INTERVALS .good else INTERVALS .again)) }

/-- The due test inside `filteredWords`:
`w.progress.nextDue ? w.progress.nextDue <= nowTs : true`.
The ternary condition is the truthiness of `nextDue`, so `null` and `0`
both take the `true` branch. -/
def isDueFilter (p : ProgressData) (nowTs : Nat) : Bool :=
  match p.nextDue with
  | none => true
  | some t => if t = 0 then true else decide (t ≤ nowTs)

/-- The due test inside `stats`:
`!w.progress.nextDue || w.progress.nextDue <= nowTs`.
`!nextDue` is true for `null` and for `0`; in the comparison `null`
coerces to `0`. -/
def isDueStats (p : ProgressData) (nowTs : Nat) : Bool :=
  (match p.nextDue with
   | none => true
   | some t => decide (t = 0)) || decide (p.nextDue.getD 0 ≤ nowTs)

/-- Integer summary counters of the `stats` memo (the rounded percentage
fields are presentation-only and not modelled). -/
structure Stats where
  total : Nat
  known : Nat
  studied : Nat
  due : Nat
deriving Repr, DecidableEq

/-- The `stats` memo: counts over the whole catalog. -/
def statsOf (words : List WordWithProgress) (nowTs : Nat) : Stats :=
  { total := words.length
    known := words.countP fun w => w.progress.known
    studied := words.countP fun w => decide (0 < w.progress.seenCount)
    due := words.countP fun w => isDueStats w.progress nowTs }

/-- Three-way comparison on a linear order; the sign of a JavaScript
numeric comparator `x - y`. -/
def cmp3 {κ : Type} [LinearOrder κ] (x y : κ) : Ordering :=
  if x < y then .lt else if x = y then .eq else .gt

/-- Lexicographic three-way comparison of char lists by code point,
modelling the string comparison of `localeCompare` (locale details are
abstracted to code-point order). -/
def listCmp : List Char → List Char → Ordering
  | [], [] => .eq
  | [], _ :: _ => .lt
  | _ :: _, [] => .gt
  | a :: as, b :: bs =>
    match cmp3 a.toNat b.toNat with
    | .eq => listCmp as bs
    | o => o

/-- String comparison used by the `alpha` sort key
(`a.value.localeCompare(b.value)`). -/
def strCmp (a b : String) : Ordering :=
  listCmp a.data b.data

/-- The sort key of `a.bnc || Infinity` (and `a.frq || Infinity`):
`none` stands for `Infinity`; a present `0` is falsy and also becomes
`Infinity`. -/
def freqKey (o : Option Int) : Option Int :=
  match o with
  | none => none
  | some v => if v = 0 then none else some v

/-- Three-way comparison of two `freqKey` values, `none` being
`Infinity`. The `Infinity - Infinity = NaN` comparator result is `+0`
per the ECMAScript sort specification, hence `.eq`. -/
def cmpOptTop (x y : Option Int) : Ordering :=
  match x, y with
  | none, none => .eq
  | none, some _ => .gt
  | some _, none => .lt
  | some a, some b => cmp3 a b

/-- The comparator of the `list.sort` call in `filteredWords`, as the
sign of the numeric comparator for each `sortBy` branch (`alpha` is the
`default` branch of the switch). -/
def sortComparator (sortBy : String) (a b : WordWithProgress) : Ordering :=
  if sortBy = "bnc" then cmpOptTop (freqKey a.bnc) (freqKey b.bnc)
  else if sortBy = "frq" then cmpOptTop (freqKey a.frq) (freqKey b.frq)
  else if sortBy = "collins" then cmp3 (jsIntOr b.collins 0) (jsIntOr a.collins 0)
  else if sortBy = "progress" then cmp3 b.progress.streak a.progress.streak
  else strCmp a.value b.value

/-- Stable insertion step: `x` is placed before the first element `y`
that is not strictly below it (`cmp y x ≠ lt`), so elements comparing
equal keep their original relative order. -/
def insertCmp {α : Type} (cmp : α → α → Ordering) (x : α) : List α → List α
  | [] => [x]
  | y :: ys => if cmp y x = .lt then y :: insertCmp cmp x ys else x :: y :: ys

/-- Stable sort by a three-way comparator, modelling the (per ECMAScript
stable) `Array.prototype.sort`. -/
def sortCmp {α : Type} (cmp : α → α → Ordering) : List α → List α
  | [] => []
  | x :: xs => insertCmp cmp x (sortCmp cmp xs)

/-- Match of one char-list at the front of another, helper for the
`String.prototype.includes` model. -/
def frontMatch : List Char → List Char → Bool
  | [], _ => true
  | _ :: _, [] => false
  | a :: as, b :: bs => a == b && frontMatch as bs

/-- Containment of `sub` in `l` at any position, helper for the
`String.prototype.includes` model. -/
def hasSubAux (sub : List Char) : List Char → Bool
  | [] => frontMatch sub []
  | c :: t => frontMatch sub (c :: t) || hasSubAux sub t

/-- `hay.includes(needle)` on strings. -/
def strIncludes (hay needle : String) : Bool :=
  hasSubAux needle.data hay.data

/-- Single left-to-right pass of the `split(/\s+/)` model; `cur` is the
current token in reverse, `inSep` tells whether the previous character
belonged to a whitespace run. -/
def splitWsAux : List Char → List Char → Bool → List String
  | [], cur, _ => [String.mk cur.reverse]
  | c :: rest, cur, inSep =>
    if c.isWhitespace then
      if inSep then splitWsAux rest [] true
      else String.mk cur.reverse :: splitWsAux rest [] true
    else splitWsAux rest (c :: cur) false

/-- JavaScript `s.split(/\s+/)`: split on maximal whitespace runs (a
leading run contributes a leading empty token, a trailing run a trailing
one). -/
def splitWsRuns (s : String) : List String :=
  splitWsAux s.data [] false

/-- JavaScript `s.toLowerCase()`, modelled character-wise (ASCII case
folding). -/
def jsToLower (s : String) : String :=
  String.mk (s.data.map Char.toLower)

/-- JavaScript `s.trim()`: strip whitespace from both ends. -/
def jsTrim (s : String) : String :=
  String.mk (((s.data.dropWhile Char.isWhitespace).reverse.dropWhile Char.isWhitespace).reverse)

/-- The selection filter/sort inputs held in component state. -/
structure FilterState where
  search : String
  tagFilter : String
  onlyFavorites : Bool
  onlyDue : Bool
  sortBy : String
deriving Repr, DecidableEq

/-- The filter predicate of the `filteredWords` memo
(`matchQuery && matchTag && matchFav && matchDue`). -/
def matchesFilters (st : FilterState) (nowTs : Nat) (q : String) (w : WordWithProgress) : Bool :=
  let matchQuery := (q == "") || strIncludes (jsToLower w.value) q
    || strIncludes (jsToLower (w.translation.getD "")) q
  let matchTag := (st.tagFilter == "all") || (splitWsRuns (w.tag.getD "")).contains st.tagFilter
  let matchFav := !st.onlyFavorites || w.progress.favorite
  let matchDue := !st.onlyDue || isDueFilter w.progress nowTs
  matchQuery && matchTag && matchFav && matchDue

/-- The `filteredWords` memo: filter the catalog, then stable-sort by
the selected comparator. -/
def filteredWords (st : FilterState) (nowTs : Nat) (words : List WordWithProgress) :
    List WordWithProgress :=
  let q := jsToLower (jsTrim st.search)
  let list := words.filter (matchesFilters st nowTs q)
  sortCmp (sortComparator st.sortBy) list

/-- The in-memory progress store, a JS object keyed by word value. -/
def Store : Type := String → Option ProgressData

/-- The functional core of `updateProgress`'s `setProgressStore`
callback: `next = { ...prev }; next[wordValue] = updater(prev[wordValue]
|| { ...defaultProgress })`. -/
def applyUpdate (prev : Store) (wordValue : String)
    (updater : ProgressData → ProgressData) : Store :=
  fun k =>
    if k = wordValue then some (updater ((prev wordValue).getD defaultProgress))
    else prev k

/-- The `localStorage.setItem` call performed by `updateProgress`:
which key was written and which mapping was serialized to it. -/
structure SaveEvent where
  key : String
  map : Store

/-- `updateProgress`: replace the entry for `wordValue` by
`updater(currentOrDefault)` and persist the whole new mapping under the
active catalog's progress key. -/
def updateProgress (dictName : Option String) (prev : Store) (wordValue : String)
    (updater : ProgressData → ProgressData) : Store × SaveEvent :=
  let next := applyUpdate prev wordValue updater
  (next, { key := loadProgressKey dictName, map := next })

/-- `generateQuiz`: `base` is the filtered list if non-empty, else the
whole catalog; `correctIdx` stands for the `Math.random` draw of the
target index and `shuffle` for the random shuffles (the
`sort(() => Math.random() - 0.5)` calls, which permute their input).
Returns the stored `(quizIndex, quizOptions)` pair, or `none` when the
source returns early. -/
def generateQuiz (shuffle : List WordWithProgress → List WordWithProgress)
    (filtered words : List WordWithProgress) (correctIdx : Nat) :
    Option (Nat × List WordWithProgress) :=
  let base := if filtered.length ≠ 0 then filtered else words
  if base.length = 0 then none
  else
    match base.get? correctIdx with
    | none => none
    | some correct =>
      let pool := base.eraseIdx correctIdx
      let shuffled := (shuffle pool).take 3
      let opts := shuffle (shuffled ++ [correct])
      some (correctIdx, opts)

/-- `onChoose idx`: lock in the answer, look up the correct entry by
`quizIndex` in the *filtered* list, and if both the correct entry and
the chosen option exist, update the correct entry's progress. Returns
the new `quizAnswered` state and the new progress store. -/
def onChoose (filtered : List WordWithProgress) (quizIndex : Nat)
    (quizOptions : List WordWithProgress) (quizAnswered : Option Nat)
    (store : Store) (idx : Nat) (nowTs : Nat) : Option Nat × Store :=
  if quizOptions.length = 0 then (quizAnswered, store)
  else if quizAnswered ≠ none then (quizAnswered, store)
  else
    match filtered.get? quizIndex, quizOptions.get? idx with
    | some correct, some chosen =>
      (some idx,
        applyUpdate store correct.value
          (quizTransition (chosen.value == correct.value) nowTs))
    | _, _ => (some idx, store)

/-- Concrete sample entry used as a test vector. -/
def sampleA : WordWithProgress :=
  { value := "a", id := "a-0", progress := defaultProgress }

/-- Concrete sample entry used as a test vector. -/
def sampleB : WordWithProgress :=
  { value := "b", id := "b-1", progress := defaultProgress }

/-- Concrete sample entry sharing its `value` with `sampleDupA2` but
differing in translation: a duplicate headword. -/
def sampleDupA1 : WordWithProgress :=
  { value := "a", id := "a-0", translation := some "t1", progress := defaultProgress }

/-- Concrete sample entry sharing its `value` with `sampleDupA1`. -/
def sampleDupA2 : WordWithProgress :=
  { value := "a", id := "a-1", translation := some "t2", progress := defaultProgress }

/-- Decimal value of a digit string, used to show that the decimal
rendering of an index is injective. -/
def val10 (l : List Char) : Nat :=
  l.foldl (fun a c => a * 10 + (c.toNat - 48)) 0

/-! ### Decimal digit strings

Facts about `Nat.toDigitsCore`, needed because the generated catalog id
is `value ++ "-" ++ Nat.repr idx`. -/

/-- The digit accumulator of `Nat.toDigitsCore` can be split off. -/
theorem toDigitsCore_append :
    ∀ (fuel n : Nat) (ds : List Char),
      Nat.toDigitsCore 10 fuel n ds = Nat.toDigitsCore 10 fuel n [] ++ ds := by
  intro fuel
  induction fuel with
  | zero => intro n ds; simp [Nat.toDigitsCore]
  | succ f ih =>
    intro n ds
    simp only [Nat.toDigitsCore]
    by_cases h : n / 10 = 0
    · simp [h]
    · simp only [h, if_false]
      rw [ih (n / 10) (Nat.digitChar (n % 10) :: ds),
        ih (n / 10) [Nat.digitChar (n % 10)], List.append_assoc]
      simp

/-- Every digit character produced for a value below ten is a decimal
digit, in particular not `'-'`. -/
theorem digitChar_lt_ten_ne_dash : ∀ d : Nat, d < 10 → Nat.digitChar d ≠ '-' := by
  decide

/-- Code point of a digit character for a value below ten. -/
theorem digitChar_lt_ten_toNat : ∀ d : Nat, d < 10 → (Nat.digitChar d).toNat = 48 + d := by
  decide

/-- Characters produced by `Nat.toDigitsCore` in base ten come from the
accumulator or are digit characters. -/
theorem mem_toDigitsCore :
    ∀ (fuel n : Nat) (ds : List Char) (c : Char),
      c ∈ Nat.toDigitsCore 10 fuel n ds → c ∈ ds ∨ ∃ d, d < 10 ∧ c = Nat.digitChar d := by
  intro fuel
  induction fuel with
  | zero => intro n ds c hc; exact Or.inl (by simpa [Nat.toDigitsCore] using hc)
  | succ f ih =>
    intro n ds c hc
    simp only [Nat.toDigitsCore] at hc
    by_cases h : n / 10 = 0
    · rw [if_pos h] at hc
      rcases List.mem_cons.mp hc with h1 | h2
      · exact Or.inr ⟨n % 10, Nat.mod_lt _ (by omega), h1⟩
      · exact Or.inl h2
    · rw [if_neg h] at hc
      rcases ih (n / 10) (Nat.digitChar (n % 10) :: ds) c hc with h1 | h2
      · rcases List.mem_cons.mp h1 with h3 | h4
        · exact Or.inr ⟨n % 10, Nat.mod_lt _ (by omega), h3⟩
        · exact Or.inl h4
      · exact Or.inr h2

/-- `Nat.toDigitsCore` on an empty accumulator decodes back to its
input. -/
theorem val10_toDigitsCore :
    ∀ (fuel n : Nat), n < fuel → val10 (Nat.toDigitsCore 10 fuel n []) = n := by
  intro fuel
  induction fuel with
  | zero => intro n hn; omega
  | succ f ih =>
    intro n hn
    simp only [Nat.toDigitsCore]
    by_cases h : n / 10 = 0
    · rw [if_pos h]
      have hlt : n % 10 < 10 := Nat.mod_lt _ (by omega)
      have hmod : n % 10 = n := by omega
      simp [val10, digitChar_lt_ten_toNat _ hlt]
      omega
    · rw [if_neg h, toDigitsCore_append]
      have hfuel : n / 10 < f := by omega
      have hlt : n % 10 < 10 := Nat.mod_lt _ (by omega)
      simp only [val10, List.foldl_append] at *
      rw [ih (n / 10) hfuel]
      simp [digitChar_lt_ten_toNat _ hlt]
      omega

/-- The decimal rendering of a natural number is injective (stated on
the underlying character lists). -/
theorem repr_data_inj (m n : Nat) :
    (Nat.repr m).data = (Nat.repr n).data → m = n := by
  intro h
  have hm : (Nat.repr m).data = Nat.toDigitsCore 10 (m + 1) m [] := rfl
  have hn : (Nat.repr n).data = Nat.toDigitsCore 10 (n + 1) n [] := rfl
  have := congrArg val10 (hm ▸ hn ▸ h)
  rwa [val10_toDigitsCore (m + 1) m (by omega),
    val10_toDigitsCore (n + 1) n (by omega)] at this

/-- The decimal rendering of a natural number contains no dash. -/
theorem repr_data_ne_dash (n : Nat) : ∀ c ∈ (Nat.repr n).data, c ≠ '-' := by
  intro c hc
  have hm : (Nat.repr n).data = Nat.toDigitsCore 10 (n + 1) n [] := rfl
  rw [hm] at hc
  rcases mem_toDigitsCore (n + 1) n [] c hc with h1 | ⟨d, hd, rfl⟩
  · cases h1
  · exact digitChar_lt_ten_ne_dash d hd

/-- Splitting a character list at a dash that is known not to occur in
the two outer parts is unambiguous. -/
theorem sep_split :
    ∀ (u1 u2 w1 w2 : List Char), (∀ c ∈ u1, c ≠ '-') → (∀ c ∈ u2, c ≠ '-') →
      u1 ++ '-' :: w1 = u2 ++ '-' :: w2 → u1 = u2 ∧ w1 = w2 := by
  intro u1
  induction u1 with
  | nil =>
    intro u2 w1 w2 _ h2 heq
    cases u2 with
    | nil => exact ⟨rfl, by simpa using heq⟩
    | cons b u2' =>
      exfalso
      have hb : '-' = b := by simpa using congrArg (fun l => l.head?) heq
      exact h2 b (List.mem_cons_self b u2') hb.symm
  | cons a u1' ih =>
    intro u2 w1 w2 h1 h2 heq
    cases u2 with
    | nil =>
      exfalso
      have ha : a = '-' := by simpa using congrArg (fun l => l.head?) heq
      exact h1 a (List.mem_cons_self a u1') ha
    | cons b u2' =>
      have hab : a = b := by simpa using congrArg (fun l => l.head?) heq
      have htl : u1' ++ '-' :: w1 = u2' ++ '-' :: w2 := by
        simpa using congrArg List.tail heq
      obtain ⟨he, hw⟩ := ih u2' w1 w2 (fun c hc => h1 c (List.mem_cons_of_mem a hc))
        (fun c hc => h2 c (List.mem_cons_of_mem b hc)) htl
      exact ⟨by rw [hab, he], hw⟩

/-- Two generated catalog ids agree only if their position indices
agree: the index is the digit run after the final dash. -/
theorem catalogId_inj_idx (v1 v2 : String) (i j : Nat)
    (h : v1 ++ "-" ++ Nat.repr i = v2 ++ "-" ++ Nat.repr j) : i = j := by
  have hd : v1.data ++ '-' :: (Nat.repr i).data
      = v2.data ++ '-' :: (Nat.repr j).data := by
    have := congrArg String.data h
    simpa [String.data_append] using this
  have hrev : (Nat.repr i).data.reverse ++ '-' :: v1.data.reverse
      = (Nat.repr j).data.reverse ++ '-' :: v2.data.reverse := by
    have := congrArg List.reverse hd
    simpa [List.reverse_append] using this
  have hsplit := sep_split ((Nat.repr i).data.reverse) ((Nat.repr j).data.reverse)
    (v1.data.reverse) (v2.data.reverse)
    (fun c hc => repr_data_ne_dash i c (List.mem_reverse.mp hc))
    (fun c hc => repr_data_ne_dash j c (List.mem_reverse.mp hc)) hrev
  have hdata : (Nat.repr i).data = (Nat.repr j).data := by
    have := congrArg List.reverse hsplit.1
    simpa using this
  exact repr_data_inj i j hdata

/-! ### Word catalog claim -/

/-- C7: `normalizeDictionary` preserves the input length, generates ids
that are unique within the catalog, and the id sequence is the explicit
deterministic function `value ++ "-" ++ idx` of the input sequence. -/
theorem normalize_spec (l : List WordItem) :
    (normalizeDictionary l).length = l.length ∧
    ((normalizeDictionary l).map (fun w => w.id)).Nodup ∧
    (normalizeDictionary l).map (fun w => w.id)
      = l.mapIdx (fun idx w => w.value ++ "-" ++ Nat.repr idx) := by
  have hmap : (normalizeDictionary l).map (fun w => w.id)
      = l.mapIdx (fun idx w => w.value ++ "-" ++ Nat.repr idx) := by
    simp [normalizeDictionary, List.mapIdx_eq_enum_map, List.map_map]
  refine ⟨by simp [normalizeDictionary], ?_, hmap⟩
  rw [hmap]
  rw [List.nodup_iff_injective_get]
  intro k1 k2 hk
  rw [List.get_eq_getElem, List.get_eq_getElem] at hk
  simp only [List.getElem_mapIdx] at hk
  exact Fin.ext (catalogId_inj_idx _ _ _ _ hk)

/-! ### Scheduler and due-predicate claims -/

/-- C1: For every `ProgressState` and flashcard grade, the grading
transition increments `seenCount`, sets `lastReviewed` to the current
time, and per grade: `again` keeps `correctCount`, resets `streak` and
schedules `now + 10 s`; `good` increments `correctCount` and `streak`
and schedules `now + 10 min`; `easy` increments both and schedules
`now + 60 min`. -/
theorem gradeFlashTransition_spec (p : ProgressData) (nowTs : Nat) :
    (∀ g : Grade, (gradeFlashTransition g nowTs p).seenCount = p.seenCount + 1 ∧
      (gradeFlashTransition g nowTs p).lastReviewed = some nowTs) ∧
    (gradeFlashTransition .again nowTs p).correctCount = p.correctCount ∧
    (gradeFlashTransition .again nowTs p).streak = 0 ∧
    (gradeFlashTransition .again nowTs p).nextDue = some (nowTs + 10 * 1000) ∧
    (gradeFlashTransition .good nowTs p).correctCount = p.correctCount + 1 ∧
    (gradeFlashTransition .good nowTs p).streak = p.streak + 1 ∧
    (gradeFlashTransition .good nowTs p).nextDue = some (nowTs + 10 * 60 * 1000) ∧
    (gradeFlashTransition .easy nowTs p).correctCount = p.correctCount + 1 ∧
    (gradeFlashTransition .easy nowTs p).streak = p.streak + 1 ∧
    (gradeFlashTransition .easy nowTs p).nextDue = some (nowTs + 60 * 60 * 1000) := by
  refine ⟨fun g => ⟨rfl, rfl⟩, ?_, ?_, rfl, ?_, ?_, rfl, ?_, ?_, rfl⟩ <;>
    simp [gradeFlashTransition]

/-- The two inlined due tests of the source agree pointwise. -/
theorem isDueStats_eq_isDueFilter (p : ProgressData) (nowTs : Nat) :
    isDueStats p nowTs = isDueFilter p nowTs := by
  match h : p.nextDue with
  | none => simp [isDueStats, isDueFilter, h]
  | some t =>
    by_cases h0 : t = 0
    · subst h0; simp [isDueStats, isDueFilter, h]
    · simp [isDueStats, isDueFilter, h, h0]

/-- C3: a word is due iff `nextDue` is absent or `nextDue ≤ now`; the
due test of the selection filter and the due test of the stats
aggregator are the same predicate, and the stats due count counts
exactly the words satisfying it. -/
theorem due_predicate_spec (p : ProgressData) (nowTs : Nat)
    (words : List WordWithProgress) :
    (isDueFilter p nowTs = true ↔
      (p.nextDue = none ∨ ∃ t, p.nextDue = some t ∧ t ≤ nowTs)) ∧
    isDueStats p nowTs = isDueFilter p nowTs ∧
    (statsOf words nowTs).due = words.countP (fun w => isDueFilter w.progress nowTs) := by
  refine ⟨?_, ?_, ?_⟩
  · rcases h : p.nextDue with _ | t
    · simp [isDueFilter, h]
    · by_cases h0 : t = 0
      · subst h0
        exact iff_of_true (by simp [isDueFilter, h]) (Or.inr ⟨0, rfl, Nat.zero_le _⟩)
      · constructor
        · intro ht
          simp only [isDueFilter, h, if_neg h0, decide_eq_true_eq] at ht
          exact Or.inr ⟨t, rfl, ht⟩
        · rintro (hn | ⟨t', ht', hle⟩)
          · cases hn
          · cases Option.some.inj ht'
            simp only [isDueFilter, h, if_neg h0, decide_eq_true_eq]
            exact hle
  · exact isDueStats_eq_isDueFilter p nowTs
  · exact List.countP_congr fun w _ => by
      simp [isDueStats_eq_isDueFilter w.progress nowTs]

/-! ### Progress store claims -/

/-- C8: `updateProgress` replaces only the entry for the given word
with `updater(currentOrDefault)`, leaves every other key unchanged, and
saves the whole new mapping. -/
theorem updateProgress_frame (dictName : Option String) (prev : Store)
    (w : String) (updater : ProgressData → ProgressData) (w' : String)
    (h : w' ≠ w) :
    (updateProgress dictName prev w updater).1 w =
      some (updater ((prev w).getD defaultProgress)) ∧
    (updateProgress dictName prev w updater).1 w' = prev w' ∧
    (updateProgress dictName prev w updater).2.map =
      (updateProgress dictName prev w updater).1 := by
  refine ⟨?_, ?_, rfl⟩
  · simp [updateProgress, applyUpdate]
  · simp [updateProgress, applyUpdate, h]

/-- Concrete instance of C8's theorem. -/
theorem updateProgress_frame_witness :
    ("beta" : String) ≠ "alpha" ∧
    ((updateProgress none (fun _ => none) "alpha" id).1 "alpha" =
      some (id ((none : Option ProgressData).getD defaultProgress)) ∧
    (updateProgress none (fun _ => none) "alpha" id).1 "beta" = none ∧
    (updateProgress none (fun _ => none) "alpha" id).2.map =
      (updateProgress none (fun _ => none) "alpha" id).1) :=
  ⟨by decide, updateProgress_frame none (fun _ => none) "alpha" id "beta" (by decide)⟩

/-- C9 counterexample: for an unnamed catalog the key computed by
`getProgressKey` itself (and by the import handler) uses the lowercase
fallback `"default"`, not `"Default"` as the claim states. -/
theorem progressKey_lowercase_default_cex :
    getProgressKey "" = "word-progress-default" ∧
    importProgressKey none = "word-progress-default" ∧
    getProgressKey "" ≠ "word-progress-Default" := by
  refine ⟨rfl, rfl, by decide⟩

/-- C9 (amended): the key is `"word-progress-" ++ name` for a non-empty
name; the load effect and `updateProgress` substitute `"Default"` for a
missing or empty catalog name, giving `"word-progress-Default"`, while
`getProgressKey`'s own fallback (used by the import handler) is the
lowercase `"default"`, giving `"word-progress-default"`. -/
theorem progressKey_spec_amended (name : String) (h : name ≠ "")
    (prev : Store) (w : String) (updater : ProgressData → ProgressData) :
    getProgressKey name = "word-progress-" ++ name ∧
    loadProgressKey none = "word-progress-Default" ∧
    loadProgressKey (some "") = "word-progress-Default" ∧
    (updateProgress none prev w updater).2.key = "word-progress-Default" ∧
    importProgressKey none = "word-progress-default" ∧
    importProgressKey (some "") = "word-progress-default" := by
  refine ⟨?_, rfl, rfl, rfl, rfl, rfl⟩
  simp [getProgressKey, h]

/-- Concrete instance of C9's amended theorem. -/
theorem progressKey_spec_amended_witness :
    ("MyBook" : String) ≠ "" ∧
    (getProgressKey "MyBook" = "word-progress-" ++ "MyBook" ∧
    loadProgressKey none = "word-progress-Default" ∧
    loadProgressKey (some "") = "word-progress-Default" ∧
    (updateProgress none (fun _ => none) "w" id).2.key = "word-progress-Default" ∧
    importProgressKey none = "word-progress-default" ∧
    importProgressKey (some "") = "word-progress-default") :=
  ⟨by decide, progressKey_spec_amended "MyBook" (by decide) (fun _ => none) "w" id⟩

/-! ### Comparator laws

The sort comparators are three-way comparisons derived from linear
orders; the sort lemmas need their swap, transitivity and equality
laws. -/

/-- Trichotomy for `cmp3`. -/
theorem cmp3_cases {κ : Type} [LinearOrder κ] (x y : κ) :
    (x < y ∧ cmp3 x y = .lt) ∨ (x = y ∧ cmp3 x y = .eq) ∨ (y < x ∧ cmp3 x y = .gt) := by
  rcases lt_trichotomy x y with h | h | h
  · exact Or.inl ⟨h, by rw [cmp3, if_pos h]⟩
  · exact Or.inr (Or.inl ⟨h, by rw [cmp3, if_neg (by simp [h]), if_pos h]⟩)
  · exact Or.inr (Or.inr ⟨h, by rw [cmp3, if_neg (not_lt.mpr h.le), if_neg h.ne']⟩)

/-- `cmp3` answers `lt` exactly on the strictly smaller side. -/
theorem cmp3_eq_lt_iff {κ : Type} [LinearOrder κ] {x y : κ} :
    cmp3 x y = .lt ↔ x < y := by
  rcases cmp3_cases x y with ⟨h, e⟩ | ⟨h, e⟩ | ⟨h, e⟩ <;> rw [e]
  · simp [h]
  · simp [h, lt_irrefl]
  · simp [lt_asymm h]

/-- `cmp3` answers `eq` exactly on equal arguments. -/
theorem cmp3_eq_eq_iff {κ : Type} [LinearOrder κ] {x y : κ} :
    cmp3 x y = .eq ↔ x = y := by
  rcases cmp3_cases x y with ⟨h, e⟩ | ⟨h, e⟩ | ⟨h, e⟩ <;> rw [e]
  · simp [h.ne]
  · simp [h]
  · simp [h.ne']

/-- `cmp3` answers `gt` exactly on the strictly greater side. -/
theorem cmp3_eq_gt_iff {κ : Type} [LinearOrder κ] {x y : κ} :
    cmp3 x y = .gt ↔ y < x := by
  rcases cmp3_cases x y with ⟨h, e⟩ | ⟨h, e⟩ | ⟨h, e⟩ <;> rw [e]
  · simp [lt_asymm h]
  · simp [h, lt_irrefl]
  · simp [h]

/-- Non-`gt` `cmp3` is `≤`. -/
theorem cmp3_ne_gt_iff {κ : Type} [LinearOrder κ] {x y : κ} :
    cmp3 x y ≠ .gt ↔ x ≤ y := by
  rw [Ne, cmp3_eq_gt_iff, not_lt]

/-- `cmp3` is antisymmetric under `Ordering.swap`. -/
theorem cmp3_swap {κ : Type} [LinearOrder κ] (x y : κ) :
    cmp3 x y = (cmp3 y x).swap := by
  rcases cmp3_cases x y with ⟨h, e⟩ | ⟨h, e⟩ | ⟨h, e⟩ <;> rw [e]
  · rw [cmp3_eq_gt_iff.mpr h]; rfl
  · rw [cmp3_eq_eq_iff.mpr h.symm]; rfl
  · rw [cmp3_eq_lt_iff.mpr h]; rfl

/-- Characters with equal code points are equal. -/
theorem char_toNat_inj {a b : Char} (h : a.toNat = b.toNat) : a = b :=
  Char.ext (UInt32.toNat.inj h)

/-- `listCmp` is antisymmetric under `Ordering.swap`. -/
theorem listCmp_swap : ∀ (a b : List Char), listCmp a b = (listCmp b a).swap := by
  intro a
  induction a with
  | nil => intro b; cases b <;> rfl
  | cons x xs ih =>
    intro b
    cases b with
    | nil => rfl
    | cons y ys =>
      show (match cmp3 x.toNat y.toNat with
        | .eq => listCmp xs ys
        | o => o) = (match cmp3 y.toNat x.toNat with
        | .eq => listCmp ys xs
        | o => o).swap
      rw [cmp3_swap x.toNat y.toNat]
      cases cmp3 y.toNat x.toNat with
      | lt => rfl
      | eq => exact ih ys
      | gt => rfl

/-- `listCmp` answers `eq` exactly on equal lists. -/
theorem listCmp_eq_eq_iff : ∀ {a b : List Char}, listCmp a b = .eq ↔ a = b := by
  intro a
  induction a with
  | nil => intro b; cases b <;> simp [listCmp]
  | cons x xs ih =>
    intro b
    cases b with
    | nil => simp [listCmp]
    | cons y ys =>
      show (match cmp3 x.toNat y.toNat with
        | .eq => listCmp xs ys
        | o => o) = .eq ↔ x :: xs = y :: ys
      rcases cmp3_cases x.toNat y.toNat with ⟨h, e⟩ | ⟨h, e⟩ | ⟨h, e⟩ <;> rw [e]
      · simp
        intro hxy
        exact absurd (hxy ▸ h) (lt_irrefl _)
      · have hxy : x = y := char_toNat_inj h
        simp [hxy, ih]
      · simp
        intro hxy
        exact absurd (hxy ▸ h) (lt_irrefl _)

/-- Transitivity of the non-`gt` relation of `listCmp` (lexicographic
order on char lists). -/
theorem listCmp_le_trans :
    ∀ (a b c : List Char), listCmp a b ≠ .gt → listCmp b c ≠ .gt → listCmp a c ≠ .gt := by
  intro a
  induction a with
  | nil =>
    intro b c _ _
    cases c <;> simp [listCmp]
  | cons x xs ih =>
    intro b c hab hbc
    cases b with
    | nil => exact absurd (rfl : listCmp (x :: xs) [] = .gt) hab
    | cons y ys =>
      cases c with
      | nil => exact absurd (rfl : listCmp (y :: ys) [] = .gt) hbc
      | cons z zs =>
        have hab' : (match cmp3 x.toNat y.toNat with
          | .eq => listCmp xs ys
          | o => o) ≠ .gt := hab
        have hbc' : (match cmp3 y.toNat z.toNat with
          | .eq => listCmp ys zs
          | o => o) ≠ .gt := hbc
        show (match cmp3 x.toNat z.toNat with
          | .eq => listCmp xs zs
          | o => o) ≠ .gt
        rcases cmp3_cases x.toNat y.toNat with ⟨h1, e1⟩ | ⟨h1, e1⟩ | ⟨h1, e1⟩ <;>
          rw [e1] at hab' <;>
          rcases cmp3_cases y.toNat z.toNat with ⟨h2, e2⟩ | ⟨h2, e2⟩ | ⟨h2, e2⟩ <;>
            rw [e2] at hbc'
        · rw [cmp3_eq_lt_iff.mpr (lt_trans h1 h2)]; simp
        · rw [cmp3_eq_lt_iff.mpr (h2 ▸ h1)]; simp
        · exact absurd rfl hbc'
        · rw [cmp3_eq_lt_iff.mpr (h1 ▸ h2)]; simp
        · rw [cmp3_eq_eq_iff.mpr (h1.trans h2)]
          exact ih ys zs hab' hbc'
        · exact absurd rfl hbc'
        · exact absurd rfl hab'
        · exact absurd rfl hab'
        · exact absurd rfl hab'

/-- `strCmp` is antisymmetric under `Ordering.swap`. -/
theorem strCmp_swap (a b : String) : strCmp a b = (strCmp b a).swap :=
  listCmp_swap a.data b.data

/-- `strCmp` answers `eq` exactly on equal strings. -/
theorem strCmp_eq_eq_iff {a b : String} : strCmp a b = .eq ↔ a = b := by
  rw [strCmp, listCmp_eq_eq_iff]
  constructor
  · intro h
    cases a
    cases b
    cases h
    rfl
  · intro h
    rw [h]

/-- Transitivity of the non-`gt` relation of `strCmp`. -/
theorem strCmp_le_trans (a b c : String) :
    strCmp a b ≠ .gt → strCmp b c ≠ .gt → strCmp a c ≠ .gt :=
  listCmp_le_trans a.data b.data c.data

/-- `cmpOptTop` is antisymmetric under `Ordering.swap`. -/
theorem cmpOptTop_swap (x y : Option Int) : cmpOptTop x y = (cmpOptTop y x).swap := by
  cases x <;> cases y
  · rfl
  · rfl
  · rfl
  · exact cmp3_swap _ _

/-- `cmpOptTop` answers `eq` exactly on equal keys. -/
theorem cmpOptTop_eq_eq_iff {x y : Option Int} : cmpOptTop x y = .eq ↔ x = y := by
  cases x <;> cases y <;> simp [cmpOptTop, cmp3_eq_eq_iff]

/-- Transitivity of the non-`gt` relation of `cmpOptTop` (`none` is the
top element). -/
theorem cmpOptTop_le_trans (x y z : Option Int) :
    cmpOptTop x y ≠ .gt → cmpOptTop y z ≠ .gt → cmpOptTop x z ≠ .gt := by
  intro h1 h2
  match x, y, z with
  | none, none, _ => exact h2
  | none, some _, _ => exact absurd rfl h1
  | some _, none, none => intro h; simp [cmpOptTop] at h
  | some _, none, some _ => exact absurd rfl h2
  | some a, some b, none => intro h; simp [cmpOptTop] at h
  | some a, some b, some c =>
    have hab : a ≤ b := cmp3_ne_gt_iff.mp h1
    have hbc : b ≤ c := cmp3_ne_gt_iff.mp h2
    exact cmp3_ne_gt_iff.mpr (le_trans hab hbc)

/-- Every `sortBy` comparator is antisymmetric under `Ordering.swap`. -/
theorem sortComparator_swap (s : String) (a b : WordWithProgress) :
    sortComparator s a b = (sortComparator s b a).swap := by
  unfold sortComparator
  split_ifs
  · exact cmpOptTop_swap _ _
  · exact cmpOptTop_swap _ _
  · exact cmp3_swap _ _
  · exact cmp3_swap _ _
  · exact strCmp_swap _ _

/-- Every `sortBy` comparator has a transitive non-`gt` relation. -/
theorem sortComparator_le_trans (s : String) (a b c : WordWithProgress) :
    sortComparator s a b ≠ .gt → sortComparator s b c ≠ .gt →
      sortComparator s a c ≠ .gt := by
  unfold sortComparator
  split_ifs <;> intro h1 h2
  · exact cmpOptTop_le_trans _ _ _ h1 h2
  · exact cmpOptTop_le_trans _ _ _ h1 h2
  · exact cmp3_ne_gt_iff.mpr (le_trans (cmp3_ne_gt_iff.mp h2) (cmp3_ne_gt_iff.mp h1))
  · exact cmp3_ne_gt_iff.mpr (le_trans (cmp3_ne_gt_iff.mp h2) (cmp3_ne_gt_iff.mp h1))
  · exact strCmp_le_trans _ _ _ h1 h2

/-- Two entries comparing equal to a common reference entry compare
equal to each other, for every `sortBy` comparator. -/
theorem sortComparator_eq_class (s : String) (y x r : WordWithProgress) :
    sortComparator s y r = .eq → sortComparator s x r = .eq →
      sortComparator s y x = .eq := by
  unfold sortComparator
  split_ifs <;> intro h1 h2
  · exact cmpOptTop_eq_eq_iff.mpr
      ((cmpOptTop_eq_eq_iff.mp h1).trans (cmpOptTop_eq_eq_iff.mp h2).symm)
  · exact cmpOptTop_eq_eq_iff.mpr
      ((cmpOptTop_eq_eq_iff.mp h1).trans (cmpOptTop_eq_eq_iff.mp h2).symm)
  · exact cmp3_eq_eq_iff.mpr
      ((cmp3_eq_eq_iff.mp h2).symm.trans (cmp3_eq_eq_iff.mp h1))
  · exact cmp3_eq_eq_iff.mpr
      ((cmp3_eq_eq_iff.mp h2).symm.trans (cmp3_eq_eq_iff.mp h1))
  · exact strCmp_eq_eq_iff.mpr
      ((strCmp_eq_eq_iff.mp h1).trans (strCmp_eq_eq_iff.mp h2).symm)

/-! ### Stable insertion sort -/

/-- Inserting is a permutation of consing. -/
theorem insertCmp_perm {α : Type} (cmp : α → α → Ordering) (x : α) (l : List α) :
    List.Perm (insertCmp cmp x l) (x :: l) := by
  induction l with
  | nil => exact List.Perm.refl _
  | cons y ys ih =>
    by_cases h : cmp y x = .lt
    · simp only [insertCmp, if_pos h]
      exact (ih.cons y).trans (List.Perm.swap x y ys)
    · simp only [insertCmp, if_neg h]
      exact List.Perm.refl _

/-- `sortCmp` permutes its input. -/
theorem sortCmp_perm {α : Type} (cmp : α → α → Ordering) (l : List α) :
    List.Perm (sortCmp cmp l) l := by
  induction l with
  | nil => exact List.Perm.refl _
  | cons x xs ih => exact (insertCmp_perm cmp x (sortCmp cmp xs)).trans (ih.cons x)

/-- From a non-`lt` comparison and the swap law, the swapped comparison
is non-`gt`. -/
theorem cmp_swap_ne_gt {α : Type} {cmp : α → α → Ordering}
    (hswap : ∀ a b, cmp a b = (cmp b a).swap) {x y : α}
    (h : cmp y x ≠ .lt) : cmp x y ≠ .gt := by
  intro hc
  rw [hswap x y] at hc
  apply h
  cases h' : cmp y x <;> rw [h'] at hc <;> first | rfl | simp [Ordering.swap] at hc

/-- Insertion preserves sortedness. -/
theorem insertCmp_pairwise {α : Type} {cmp : α → α → Ordering}
    (hswap : ∀ a b, cmp a b = (cmp b a).swap)
    (htrans : ∀ a b c, cmp a b ≠ .gt → cmp b c ≠ .gt → cmp a c ≠ .gt)
    (x : α) (l : List α) (hl : l.Pairwise (fun a b => cmp a b ≠ .gt)) :
    (insertCmp cmp x l).Pairwise (fun a b => cmp a b ≠ .gt) := by
  induction l with
  | nil => simp [insertCmp]
  | cons y ys ih =>
    rcases List.pairwise_cons.mp hl with ⟨hy, hys⟩
    by_cases h : cmp y x = .lt
    · simp only [insertCmp, if_pos h]
      refine List.pairwise_cons.mpr ⟨?_, ih hys⟩
      intro z hz
      rcases List.mem_cons.mp ((insertCmp_perm cmp x ys).mem_iff.mp hz) with rfl | hz'
      · simp [h]
      · exact hy z hz'
    · simp only [insertCmp, if_neg h]
      have hxy : cmp x y ≠ .gt := cmp_swap_ne_gt hswap h
      refine List.pairwise_cons.mpr ⟨?_, hl⟩
      intro z hz
      rcases List.mem_cons.mp hz with rfl | hz'
      · exact hxy
      · exact htrans x y z hxy (hy z hz')

/-- `sortCmp` sorts: the output is pairwise non-`gt`. -/
theorem sortCmp_pairwise {α : Type} {cmp : α → α → Ordering}
    (hswap : ∀ a b, cmp a b = (cmp b a).swap)
    (htrans : ∀ a b c, cmp a b ≠ .gt → cmp b c ≠ .gt → cmp a c ≠ .gt)
    (l : List α) : (sortCmp cmp l).Pairwise (fun a b => cmp a b ≠ .gt) := by
  induction l with
  | nil => simp [sortCmp]
  | cons x xs ih => exact insertCmp_pairwise hswap htrans x (sortCmp cmp xs) ih

/-- Inserting below the whole list is consing. -/
theorem insertCmp_eq_cons {α : Type} {cmp : α → α → Ordering}
    (hswap : ∀ a b, cmp a b = (cmp b a).swap) (x : α) (l : List α)
    (hx : ∀ y ∈ l, cmp x y ≠ .gt) : insertCmp cmp x l = x :: l := by
  cases l with
  | nil => rfl
  | cons y ys =>
    have h : ¬ cmp y x = .lt := by
      intro hlt
      exact hx y (List.mem_cons_self y ys) (by rw [hswap x y, hlt]; rfl)
    simp [insertCmp, h]

/-- A sorted list is a fixed point of `sortCmp` — together with
`sortCmp_pairwise` this is the idempotence of sorting. -/
theorem sortCmp_of_pairwise {α : Type} {cmp : α → α → Ordering}
    (hswap : ∀ a b, cmp a b = (cmp b a).swap) (l : List α)
    (hl : l.Pairwise (fun a b => cmp a b ≠ .gt)) : sortCmp cmp l = l := by
  induction l with
  | nil => rfl
  | cons x xs ih =>
    rcases List.pairwise_cons.mp hl with ⟨hy, hys⟩
    show insertCmp cmp x (sortCmp cmp xs) = x :: xs
    rw [ih hys]
    exact insertCmp_eq_cons hswap x xs hy

/-- Filtering one comparator equivalence class out of an insertion:
the inserted element lands in front of the class when it belongs to it,
because insertion never passes a class member. -/
theorem insertCmp_filter {α : Type} {cmp : α → α → Ordering} (p : α → Bool)
    (x : α) (l : List α)
    (hkeep : ∀ y ∈ l, p y = true → p x = true → cmp y x ≠ .lt) :
    (insertCmp cmp x l).filter p =
      if p x then x :: l.filter p else l.filter p := by
  induction l with
  | nil =>
    by_cases hp : p x <;> simp [insertCmp, List.filter, hp]
  | cons y ys ih =>
    have hkeep' : ∀ y' ∈ ys, p y' = true → p x = true → cmp y' x ≠ .lt :=
      fun y' hy' => hkeep y' (List.mem_cons_of_mem y hy')
    by_cases h : cmp y x = .lt
    · simp only [insertCmp, if_pos h, List.filter_cons]
      rw [ih hkeep']
      by_cases hpx : p x
      · have hpy : ¬ p y = true := fun hpy =>
          absurd h (hkeep y (List.mem_cons_self y ys) hpy hpx)
        simp [hpy, hpx]
      · by_cases hpy : p y <;> simp [hpy, hpx]
    · simp only [insertCmp, if_neg h, List.filter_cons]

/-- Stability of `sortCmp`: filtering the output down to one
comparator equivalence class gives the class members in their input
order. -/
theorem sortCmp_filter_class {α : Type} {cmp : α → α → Ordering} (p : α → Bool)
    (hcls : ∀ a b, p a = true → p b = true → cmp a b ≠ .lt) (l : List α) :
    (sortCmp cmp l).filter p = l.filter p := by
  induction l with
  | nil => rfl
  | cons x xs ih =>
    show (insertCmp cmp x (sortCmp cmp xs)).filter p = (x :: xs).filter p
    rw [insertCmp_filter p x (sortCmp cmp xs) (fun y _ hy hx => hcls y x hy hx), ih]
    by_cases hpx : p x <;> simp [hpx, List.filter_cons]

/-! ### Selection engine claims -/

/-- C4: selection (filter + stable sort) is idempotent — running it on
its own output returns that output unchanged — and stable: restricted
to any comparator equivalence class, the output lists exactly the
class members of the filtered catalog in their original catalog
order. -/
theorem select_idempotent_stable (st : FilterState) (nowTs : Nat)
    (ws : List WordWithProgress) :
    filteredWords st nowTs (filteredWords st nowTs ws) = filteredWords st nowTs ws ∧
    ∀ x, (filteredWords st nowTs ws).filter
        (fun e => decide (sortComparator st.sortBy e x = .eq))
      = (ws.filter (matchesFilters st nowTs (jsToLower (jsTrim st.search)))).filter
          (fun e => decide (sortComparator st.sortBy e x = .eq)) := by
  have hsel : ∀ l : List WordWithProgress, filteredWords st nowTs l =
      sortCmp (sortComparator st.sortBy)
        (l.filter (matchesFilters st nowTs (jsToLower (jsTrim st.search)))) :=
    fun l => rfl
  constructor
  · rw [hsel ws, hsel]
    have hmem : ∀ a ∈ sortCmp (sortComparator st.sortBy)
        (ws.filter (matchesFilters st nowTs (jsToLower (jsTrim st.search)))),
        matchesFilters st nowTs (jsToLower (jsTrim st.search)) a := by
      intro a ha
      exact List.of_mem_filter ((sortCmp_perm _ _).mem_iff.mp ha)
    rw [List.filter_eq_self.mpr hmem]
    exact sortCmp_of_pairwise (sortComparator_swap st.sortBy) _
      (sortCmp_pairwise (sortComparator_swap st.sortBy)
        (sortComparator_le_trans st.sortBy) _)
  · intro x
    rw [hsel ws]
    refine sortCmp_filter_class _ ?_ _
    intro a b ha hb
    have heq := sortComparator_eq_class st.sortBy a b x
      (of_decide_eq_true ha) (of_decide_eq_true hb)
    simp [heq]

/-- Decoding the non-`gt` relation of the frequency comparator into the
claim-level ordering facts. -/
theorem freq_le_decode (x y : Option Int)
    (h : cmpOptTop (freqKey x) (freqKey y) ≠ .gt) :
    (∀ u v : Int, x = some u → u ≠ 0 → y = some v → v ≠ 0 → u ≤ v) ∧
    ((x = none ∨ x = some 0) → (y = none ∨ y = some 0)) := by
  constructor
  · intro u v hx hu hy hv
    subst hx
    subst hy
    have h' : cmp3 u v ≠ .gt := by
      simpa [freqKey, hu, hv, cmpOptTop] using h
    exact cmp3_ne_gt_iff.mp h'
  · intro hx
    have hfx : freqKey x = none := by
      rcases hx with rfl | rfl <;> simp [freqKey]
    rw [hfx] at h
    rcases hy : y with _ | v
    · exact Or.inl rfl
    · by_cases hv : v = 0
      · exact Or.inr (by rw [hv])
      · subst hy
        exact absurd (by simp [freqKey, hv, cmpOptTop]) h

/-- C6 (amended): under the `bnc` (resp. `frq`) sort key the output is
ascending in the present *nonzero* field values, and every entry
lacking the field or carrying the value `0` (both mapped to `Infinity`
by the `||` fallback) is placed after every entry with a nonzero
value. -/
theorem freq_sort_order_amended (search tagF : String) (fav due : Bool)
    (nowTs : Nat) (ws : List WordWithProgress) :
    (filteredWords ⟨search, tagF, fav, due, "bnc"⟩ nowTs ws).Pairwise
      (fun a b =>
        (∀ u v : Int, a.bnc = some u → u ≠ 0 → b.bnc = some v → v ≠ 0 → u ≤ v) ∧
        ((a.bnc = none ∨ a.bnc = some 0) → (b.bnc = none ∨ b.bnc = some 0))) ∧
    (filteredWords ⟨search, tagF, fav, due, "frq"⟩ nowTs ws).Pairwise
      (fun a b =>
        (∀ u v : Int, a.frq = some u → u ≠ 0 → b.frq = some v → v ≠ 0 → u ≤ v) ∧
        ((a.frq = none ∨ a.frq = some 0) → (b.frq = none ∨ b.frq = some 0))) := by
  constructor
  · have hp := sortCmp_pairwise (sortComparator_swap "bnc")
      (sortComparator_le_trans "bnc")
      (ws.filter (matchesFilters ⟨search, tagF, fav, due, "bnc"⟩ nowTs
        (jsToLower (jsTrim search))))
    exact List.Pairwise.imp
      (fun hab => freq_le_decode _ _ (by simpa [sortComparator] using hab)) hp
  · have hp := sortCmp_pairwise (sortComparator_swap "frq")
      (sortComparator_le_trans "frq")
      (ws.filter (matchesFilters ⟨search, tagF, fav, due, "frq"⟩ nowTs
        (jsToLower (jsTrim search))))
    exact List.Pairwise.imp
      (fun hab => freq_le_decode _ _ (by simpa [sortComparator] using hab)) hp

/-- C6 counterexample: an entry carrying `bnc = 0` is treated as
missing by the `a.bnc || Infinity` fallback and sorts after an entry
carrying `bnc = 5`, so the output of the `bnc` sort is not ascending in
the carried field values. -/
theorem freq_sort_order_cex :
    filteredWords ⟨"", "all", false, false, "bnc"⟩ 0
        [{ value := "x", id := "x-0", progress := defaultProgress, bnc := some 0 },
         { value := "y", id := "y-1", progress := defaultProgress, bnc := some 5 }]
      = [{ value := "y", id := "y-1", progress := defaultProgress, bnc := some 5 },
         { value := "x", id := "x-0", progress := defaultProgress, bnc := some 0 }] ∧
    ¬ ((filteredWords ⟨"", "all", false, false, "bnc"⟩ 0
        [{ value := "x", id := "x-0", progress := defaultProgress, bnc := some 0 },
         { value := "y", id := "y-1", progress := defaultProgress, bnc := some 5 }]).Pairwise
      (fun a b => ∀ u v : Int, a.bnc = some u → b.bnc = some v → u ≤ v)) := by
  refine ⟨rfl, ?_⟩
  intro h
  rw [show filteredWords ⟨"", "all", false, false, "bnc"⟩ 0
        [{ value := "x", id := "x-0", progress := defaultProgress, bnc := some 0 },
         { value := "y", id := "y-1", progress := defaultProgress, bnc := some 5 }]
      = [{ value := "y", id := "y-1", progress := defaultProgress, bnc := some 5 },
         { value := "x", id := "x-0", progress := defaultProgress, bnc := some 0 }] from rfl] at h
  have h5 := (List.pairwise_cons.mp h).1 _ (List.mem_cons_self _ _)
  have h50 := h5 5 0 rfl rfl
  omega

/-! ### Quiz generator claims -/

/-- C2 (amended): over a non-empty active set whose entries have
pairwise distinct `value` strings, quiz generation returns the drawn
target index together with an option list of exactly
`min 4 |activeSet|` options that contains the target, is pairwise
distinct by `value`, and contains exactly one option passing the
correctness check (`value` equality with the target). -/
theorem generateQuiz_spec_amended
    (shuffle : List WordWithProgress → List WordWithProgress)
    (hsh : ∀ l, List.Perm (shuffle l) l)
    (filtered words : List WordWithProgress) (correctIdx : Nat)
    (hne : filtered ≠ []) (hidx : correctIdx < filtered.length)
    (hnd : (filtered.map (fun w => w.value)).Nodup) :
    ∃ opts, generateQuiz shuffle filtered words correctIdx = some (correctIdx, opts) ∧
      opts.length = min 4 filtered.length ∧
      filtered.get ⟨correctIdx, hidx⟩ ∈ opts ∧
      (opts.map (fun w => w.value)).Nodup ∧
      opts.countP
        (fun o => decide (o.value = (filtered.get ⟨correctIdx, hidx⟩).value)) = 1 := by
  have hlen0 : filtered.length ≠ 0 := fun h => hne (List.length_eq_zero.mp h)
  have hget : filtered.get? correctIdx = some (filtered.get ⟨correctIdx, hidx⟩) :=
    List.get?_eq_get hidx
  have htarget : filtered.get ⟨correctIdx, hidx⟩ = filtered[correctIdx] :=
    List.get_eq_getElem _ _
  have hsplit : filtered =
      filtered.take correctIdx ++ filtered[correctIdx] :: filtered.drop (correctIdx + 1) := by
    conv_lhs => rw [← List.take_append_drop correctIdx filtered]
    rw [List.drop_eq_getElem_cons hidx]
  have herase : filtered.eraseIdx correctIdx =
      filtered.take correctIdx ++ filtered.drop (correctIdx + 1) :=
    List.eraseIdx_eq_take_drop_succ filtered correctIdx
  have hperm_base : List.Perm filtered
      (filtered[correctIdx] :: filtered.eraseIdx correctIdx) := by
    rw [herase]
    conv_lhs => rw [hsplit]
    exact List.perm_middle
  have hnd_cons : (filtered[correctIdx].value ::
      (filtered.eraseIdx correctIdx).map (fun w => w.value)).Nodup := by
    have := (hperm_base.map (fun w => w.value)).nodup_iff.mp hnd
    simpa using this
  have hnotin : filtered[correctIdx].value ∉
      (filtered.eraseIdx correctIdx).map (fun w => w.value) :=
    (List.nodup_cons.mp hnd_cons).1
  have hnd_pool : ((filtered.eraseIdx correctIdx).map (fun w => w.value)).Nodup :=
    (List.nodup_cons.mp hnd_cons).2
  have hmem_shuffled : ∀ o ∈ (shuffle (filtered.eraseIdx correctIdx)).take 3,
      o.value ∈ (filtered.eraseIdx correctIdx).map (fun w => w.value) := by
    intro o ho
    exact List.mem_map_of_mem _
      ((hsh _).mem_iff.mp (List.mem_of_mem_take ho))
  have hopts_perm : List.Perm
      (shuffle ((shuffle (filtered.eraseIdx correctIdx)).take 3 ++
        [filtered.get ⟨correctIdx, hidx⟩]))
      ((shuffle (filtered.eraseIdx correctIdx)).take 3 ++
        [filtered.get ⟨correctIdx, hidx⟩]) := hsh _
  refine ⟨shuffle ((shuffle (filtered.eraseIdx correctIdx)).take 3 ++
    [filtered.get ⟨correctIdx, hidx⟩]), ?_, ?_, ?_, ?_, ?_⟩
  · simp only [generateQuiz, if_pos hlen0, if_neg hlen0, hget]
  · rw [hopts_perm.length_eq, List.length_append, List.length_take,
      (hsh _).length_eq, List.length_eraseIdx_of_lt hidx]
    simp only [List.length_singleton]
    omega
  · exact hopts_perm.mem_iff.mpr (List.mem_append_right _ (List.mem_singleton_self _))
  · have hnd_app : ((((shuffle (filtered.eraseIdx correctIdx)).take 3) ++
        [filtered.get ⟨correctIdx, hidx⟩]).map (fun w => w.value)).Nodup := by
      rw [List.map_append]
      refine List.nodup_append.mpr ⟨?_, by simp, ?_⟩
      · have h1 : ((shuffle (filtered.eraseIdx correctIdx)).map
            (fun w => w.value)).Nodup :=
          ((hsh _).map (fun w => w.value)).nodup_iff.mpr hnd_pool
        have h2 : List.Sublist
            (((shuffle (filtered.eraseIdx correctIdx)).take 3).map (fun w => w.value))
            ((shuffle (filtered.eraseIdx correctIdx)).map (fun w => w.value)) := by
          rw [List.map_take]
          exact List.take_sublist _ _
        exact h1.sublist h2
      · simp only [List.map_cons, List.map_nil, List.disjoint_singleton]
        intro hmem
        rcases List.mem_map.mp hmem with ⟨o, ho, hov⟩
        have := hmem_shuffled o ho
        rw [hov, htarget] at this
        exact hnotin this
    exact (hopts_perm.map (fun w => w.value)).nodup_iff.mpr hnd_app
  · rw [hopts_perm.countP_eq, List.countP_append]
    have hzero : ((shuffle (filtered.eraseIdx correctIdx)).take 3).countP
        (fun o => decide (o.value = (filtered.get ⟨correctIdx, hidx⟩).value)) = 0 := by
      rw [List.countP_eq_zero]
      intro o ho
      simp only [decide_eq_true_eq]
      intro hov
      apply hnotin
      rw [← htarget, ← hov]
      exact hmem_shuffled o ho
    rw [hzero]
    simp

/-- Concrete instance of C2's amended theorem. -/
theorem generateQuiz_spec_amended_witness :
    ([sampleA, sampleB] : List WordWithProgress) ≠ [] ∧
    0 < ([sampleA, sampleB] : List WordWithProgress).length ∧
    (([sampleA, sampleB] : List WordWithProgress).map (fun w => w.value)).Nodup ∧
    (∃ opts, generateQuiz id [sampleA, sampleB] [sampleA, sampleB] 0 = some (0, opts) ∧
      opts.length = min 4 ([sampleA, sampleB] : List WordWithProgress).length ∧
      ([sampleA, sampleB] : List WordWithProgress).get ⟨0, by decide⟩ ∈ opts ∧
      (opts.map (fun w => w.value)).Nodup ∧
      opts.countP (fun o => decide (o.value =
        (([sampleA, sampleB] : List WordWithProgress).get ⟨0, by decide⟩).value)) = 1) :=
  ⟨by decide, by decide, by decide,
    generateQuiz_spec_amended id (fun l => List.Perm.refl l)
      [sampleA, sampleB] [sampleA, sampleB] 0 (by decide) (by decide) (by decide)⟩

/-- C2 counterexample: on an active set of two entries sharing the
value `"a"`, the generated option list has two options with equal
`value` strings, and both pass the correctness check. -/
theorem generateQuiz_distinct_cex :
    generateQuiz id [sampleDupA1, sampleDupA2] [sampleDupA1, sampleDupA2] 0
      = some (0, [sampleDupA2, sampleDupA1]) ∧
    ¬ ((([sampleDupA2, sampleDupA1] : List WordWithProgress).map
        (fun w => w.value)).Nodup) ∧
    ([sampleDupA2, sampleDupA1] : List WordWithProgress).countP
      (fun o => decide (o.value = sampleDupA1.value)) = 2 := by
  refine ⟨rfl, by decide, by decide⟩

/-- C5: answering a quiz question with a value-matching option applies
the "good" update to the target's progress (seen +1, correct +1,
streak +1, due in 10 minutes), a non-matching option applies seen +1,
streak reset, correct count unchanged, due in 10 seconds; `lastReviewed`
is set to the current time either way, only the target's entry
changes, and the answer is locked in. -/
theorem quiz_answer_updates_target
    (filtered : List WordWithProgress) (quizIndex : Nat)
    (quizOptions : List WordWithProgress) (store : Store) (idx nowTs : Nat)
    (correct chosen : WordWithProgress)
    (hopts : quizOptions ≠ [])
    (hc : filtered.get? quizIndex = some correct)
    (hch : quizOptions.get? idx = some chosen) :
    (onChoose filtered quizIndex quizOptions none store idx nowTs).1 = some idx ∧
    (chosen.value = correct.value →
      (onChoose filtered quizIndex quizOptions none store idx nowTs).2 correct.value =
        some { (store correct.value).getD defaultProgress with
          seenCount := ((store correct.value).getD defaultProgress).seenCount + 1
          correctCount := ((store correct.value).getD defaultProgress).correctCount + 1
          streak := ((store correct.value).getD defaultProgress).streak + 1
          lastReviewed := some nowTs
          nextDue := some (nowTs + 10 * 60 * 1000) }) ∧
    (chosen.value ≠ correct.value →
      (onChoose filtered quizIndex quizOptions none store idx nowTs).2 correct.value =
        some { (store correct.value).getD defaultProgress with
          seenCount := ((store correct.value).getD defaultProgress).seenCount + 1
          streak := 0
          lastReviewed := some nowTs
          nextDue := some (nowTs + 10 * 1000) }) ∧
    (∀ k, k ≠ correct.value →
      (onChoose filtered quizIndex quizOptions none store idx nowTs).2 k = store k) := by
  have hlen : quizOptions.length ≠ 0 := fun h => hopts (List.length_eq_zero.mp h)
  have hc' : filtered[quizIndex]? = some correct := by
    rw [← List.get?_eq_getElem?]
    exact hc
  have hch' : quizOptions[idx]? = some chosen := by
    rw [← List.get?_eq_getElem?]
    exact hch
  have hon : onChoose filtered quizIndex quizOptions none store idx nowTs =
      (some idx, applyUpdate store correct.value
        (quizTransition (chosen.value == correct.value) nowTs)) := by
    simp [onChoose, hlen, hc', hch']
  refine ⟨by rw [hon], ?_, ?_, ?_⟩
  · intro heq
    rw [hon]
    have hbeq : (chosen.value == correct.value) = true := beq_iff_eq.mpr heq
    simp only [applyUpdate, if_pos rfl, hbeq]
    simp [quizTransition, INTERVALS]
  · intro hne
    rw [hon]
    have hbeq : (chosen.value == correct.value) = false := beq_eq_false_iff_ne.mpr hne
    simp only [applyUpdate, if_pos rfl, hbeq]
    simp [quizTransition, INTERVALS]
  · intro k hk
    rw [hon]
    simp [applyUpdate, hk]

/-- Concrete instance of C5's theorem (correct choice). -/
theorem quiz_answer_updates_target_witness :
    ([sampleA, sampleB] : List WordWithProgress) ≠ [] ∧
    ([sampleA] : List WordWithProgress).get? 0 = some sampleA ∧
    ([sampleA, sampleB] : List WordWithProgress).get? 0 = some sampleA ∧
    ((onChoose [sampleA] 0 [sampleA, sampleB] none (fun _ => none) 0 7).1 = some 0 ∧
    (sampleA.value = sampleA.value →
      (onChoose [sampleA] 0 [sampleA, sampleB] none (fun _ => none) 0 7).2 sampleA.value =
        some { ((none : Option ProgressData).getD defaultProgress) with
          seenCount := ((none : Option ProgressData).getD defaultProgress).seenCount + 1
          correctCount := ((none : Option ProgressData).getD defaultProgress).correctCount + 1
          streak := ((none : Option ProgressData).getD defaultProgress).streak + 1
          lastReviewed := some 7
          nextDue := some (7 + 10 * 60 * 1000) }) ∧
    (sampleA.value ≠ sampleA.value →
      (onChoose [sampleA] 0 [sampleA, sampleB] none (fun _ => none) 0 7).2 sampleA.value =
        some { ((none : Option ProgressData).getD defaultProgress) with
          seenCount := ((none : Option ProgressData).getD defaultProgress).seenCount + 1
          streak := 0
          lastReviewed := some 7
          nextDue := some (7 + 10 * 1000) }) ∧
    (∀ k, k ≠ sampleA.value →
      (onChoose [sampleA] 0 [sampleA, sampleB] none (fun _ => none) 0 7).2 k =
        (fun _ => none : Store) k)) :=
  ⟨by decide, rfl, rfl,
    quiz_answer_updates_target [sampleA] 0 [sampleA, sampleB] (fun _ => none) 0 7
      sampleA sampleA (by decide) rfl rfl⟩

/-- C10: when the filtered list is empty, the quiz is generated from
the whole-catalog fallback, yet answering it locks in the chosen index
and leaves the progress store completely unchanged, because the
"correct" entry is looked up by index in the empty filtered list. -/
theorem quiz_fallback_no_progress_update
    (shuffle : List WordWithProgress → List WordWithProgress)
    (words : List WordWithProgress) (correctIdx quizIdxOut : Nat)
    (opts : List WordWithProgress) (store : Store) (idx nowTs : Nat)
    (hsh : ∀ l, List.Perm (shuffle l) l)
    (hgen : generateQuiz shuffle [] words correctIdx = some (quizIdxOut, opts)) :
    (onChoose [] quizIdxOut opts none store idx nowTs).1 = some idx ∧
    (onChoose [] quizIdxOut opts none store idx nowTs).2 = store := by
  have hO : opts.length ≠ 0 := by
    by_cases hwl : words.length = 0
    · simp [generateQuiz, hwl] at hgen
    · rcases hw : words[correctIdx]? with _ | correct
      · simp [generateQuiz, hwl, List.get?_eq_getElem?, hw] at hgen
      · simp [generateQuiz, hwl, List.get?_eq_getElem?, hw] at hgen
        rw [← hgen.2, (hsh _).length_eq, List.length_append]
        simp
  constructor
  · simp [onChoose, hO]
  · simp [onChoose, hO]

/-- Concrete instance of C10's theorem. -/
theorem quiz_fallback_no_progress_update_witness :
    generateQuiz id [] [sampleA] 0 = some (0, [sampleA]) ∧
    ((onChoose [] 0 [sampleA] none (fun _ => none) 0 7).1 = some 0 ∧
     (onChoose [] 0 [sampleA] none (fun _ => none) 0 7).2 = (fun _ => none : Store)) :=
  ⟨rfl, quiz_fallback_no_progress_update id [sampleA] 0 0 [sampleA]
    (fun _ => none) 0 7 (fun l => List.Perm.refl l) rfl⟩

end Vocab
